import Mathlib

set_option maxRecDepth 8000

/-!
Verification development for `src/voronoiareas.py` (bounded Voronoi
construction pipeline).  All numeric code is shallowly embedded over exact
rationals (`ℚ`); Euclidean distances, which are the only irrational
quantities, are embedded over `ℝ` where they are needed.
-/

namespace VoronoiAreas

/-- A 2-D point with exact rational coordinates (embedding of the
floating-point pairs used throughout the source). -/
abbrev Pt := ℚ × ℚ

/-- The clipping rectangle `encbox = (xmin, ymin, xmax, ymax)`. -/
structure EncBox where
  xmin : ℚ
  ymin : ℚ
  xmax : ℚ
  ymax : ℚ
deriving DecidableEq

/-- Coordinate selection `v[i]` for `i ∈ .0, 1.` (source: `v0[i]`, `alpha[i]`
with `i = j % 2`). -/
def coordAt (p : Pt) (i : ℕ) : ℚ := if i = 0 then p.1 else p.2

/-- The four `(c, i)` pairs traversed by `get_crossing_point_rectangle`:
`for j, c in enumerate(encbox): i = j % 2`, with `encbox` ordered
`xmin, ymin, xmax, ymax`. -/
def sidesOf (encbox : EncBox) : List (ℚ × ℕ) :=
  [(encbox.xmin, 0), (encbox.ymin, 1), (encbox.xmax, 0), (encbox.ymax, 1)]

/-- Per-side candidate distance `d` computed inside the loop of
`get_crossing_point_rectangle`:
`d = (c - v0[i]); if alpha[i] == 0: d *= orient; else: d = d / alpha[i] * orient`. -/
def sideDist (v0 alpha : Pt) (orient : ℚ) (s : ℚ × ℕ) : ℚ :=
  if coordAt alpha s.2 = 0 then (s.1 - coordAt v0 s.2) * orient
  else (s.1 - coordAt v0 s.2) / coordAt alpha s.2 * orient

/-- One iteration of the `mindist` accumulation:
`if d < 0: continue; if d < mindist: mindist = d`. -/
def minStep (mindist d : ℚ) : ℚ :=
  if d < 0 then mindist else if d < mindist then d else mindist

/-- Embedding of `get_crossing_point_rectangle(v0, alpha, orient, encbox)`
(source lines 62-74).  `mindist` starts at the literal `999999999` and the
function returns `v0 + orient * alpha * mindist`. -/
def get_crossing_point_rectangle (v0 alpha : Pt) (orient : ℚ) (encbox : EncBox) : Pt :=
  let mindist := ((sidesOf encbox).map (sideDist v0 alpha orient)).foldl minStep 999999999
  (v0.1 + orient * alpha.1 * mindist, v0.2 + orient * alpha.2 * mindist)

/-- Membership (boundary inclusive) in the clipping rectangle. -/
def inBox (p : Pt) (b : EncBox) : Prop :=
  b.xmin ≤ p.1 ∧ p.1 ≤ b.xmax ∧ b.ymin ≤ p.2 ∧ p.2 ≤ b.ymax

instance (p : Pt) (b : EncBox) : Decidable (inBox p b) :=
  inferInstanceAs (Decidable (_ ≤ _ ∧ _ ≤ _ ∧ _ ≤ _ ∧ _ ≤ _))

/-- Modelled from the spec: the ray-box intersection rule as the spec words it
(section 4.2 step 4).  The candidate for a side with nonzero normal component
is the crossing distance; a side whose axis has zero normal component is
skipped (no candidate) unless `V` is already outside that bound, in which case
its candidate is `0`.  The smallest non-negative candidate is taken (with the
same `999999999` default as the code when no candidate exists).  The four
sides are tagged with whether they are a lower bound (`xmin`/`ymin`) or an
upper bound (`xmax`/`ymax`). -/
def specSideCandidate (v0 alpha : Pt) (orient : ℚ) (s : ℚ × ℕ × Bool) : Option ℚ :=
  let c := s.1
  let i := s.2.1
  let isUpper := s.2.2
  if coordAt alpha i = 0 then
    if (isUpper = true ∧ c < coordAt v0 i) ∨ (isUpper = false ∧ coordAt v0 i < c) then
      some 0
    else none
  else
    let d := (c - coordAt v0 i) / coordAt alpha i * orient
    if 0 ≤ d then some d else none

/-- Modelled from the spec: the point the spec's ray-box rule would return. -/
def crossing_point_rectangle_specRule (v0 alpha : Pt) (orient : ℚ) (b : EncBox) : Pt :=
  let sides : List (ℚ × ℕ × Bool) :=
    [(b.xmin, 0, false), (b.ymin, 1, false), (b.xmax, 0, true), (b.ymax, 1, true)]
  let mindist := (sides.filterMap (specSideCandidate v0 alpha orient)).foldl min 999999999
  (v0.1 + orient * alpha.1 * mindist, v0.2 + orient * alpha.2 * mindist)

/-- The `mindist` value accumulated by `get_crossing_point_rectangle`. -/
def minDistOf (v0 alpha : Pt) (orient : ℚ) (b : EncBox) : ℚ :=
  ((sidesOf b).map (sideDist v0 alpha orient)).foldl minStep 999999999

/-! ### Convex position geometry (for the region closer's hull outputs) -/

/-- Signed twice-area of the triangle `a b c`; positive iff `c` lies strictly
to the left of the directed line `a → b`. -/
def ccw (a b c : Pt) : ℚ :=
  (b.1 - a.1) * (c.2 - a.2) - (b.2 - a.2) * (c.1 - a.1)

/-- Cross product of two position vectors. -/
def cross (a b : Pt) : ℚ := a.1 * b.2 - a.2 * b.1

/-- Cyclic access into a polygon's vertex list. -/
def cyc (L : List Pt) (i : ℕ) : Pt := L.getD (i % L.length) (0, 0)

/-- The point `p` lies on the closed segment from `a` to `b`. -/
def onSeg (a b p : Pt) : Prop :=
  ∃ t : ℚ, 0 ≤ t ∧ t ≤ 1 ∧ p = (a.1 + t * (b.1 - a.1), a.2 + t * (b.2 - a.2))

/-- The vertex list is in strictly convex counterclockwise position: it has at
least 3 vertices and every vertex not an endpoint of a directed boundary edge
lies strictly to the left of that edge.  This is the documented output shape
of the external 2-D convex-hull primitive (`scipy.spatial.ConvexHull`:
`vertices` are the extreme points in counterclockwise order). -/
def StrictConvexCCW (L : List Pt) : Prop :=
  3 ≤ L.length ∧ ∀ i < L.length, ∀ j < L.length,
    j ≠ i → j ≠ (i + 1) % L.length →
    0 < ccw (cyc L i) (cyc L ((i + 1) % L.length)) (cyc L j)

/-- Twice the shoelace area of the polygon. -/
def shoelace2 (L : List Pt) : ℚ :=
  ∑ i ∈ Finset.range L.length, cross (cyc L i) (cyc L ((i + 1) % L.length))

/-! ### Region closer: `get_boxed_polygons` (source lines 77-116) -/

/-- The tessellation data produced by the external Voronoi primitive
(`scipy.spatial.Voronoi`): seeds, finite vertices, per-ridge vertex-id pairs
(`-1` is the unbounded sentinel), per-ridge generator pairs, per-region
vertex-id lists and the seed-to-region mapping. -/
structure Tessellation where
  points : List Pt
  vertices : List Pt
  ridge_points : List (ℕ × ℕ)
  ridge_vertices : List (ℤ × ℤ)
  regions : List (List ℤ)
  point_region : List ℕ

/-- Errors the region closer can surface.  The embedding only ever produces
`qhullError` (the error raised by the external `scipy.spatial.ConvexHull`
primitive on degenerate input and propagated by the source, which contains no
`try`/`except`); `illFormedRegionError` is the spec's vocabulary
(`IllFormedRegionError`), included here only so claims about it can be
stated — no code path yields it. -/
inductive GeomError where
  | qhullError
  | illFormedRegionError
deriving DecidableEq

/-- Python list indexing (negative indices address from the end), used for
`newvorvertices[reg]`. -/
def pyGetD (l : List Pt) (i : ℤ) : Pt :=
  if i < 0 then l.getD (l.length - (-i).toNat) (0, 0) else l.getD i.toNat (0, 0)

/-- The replacement vertex ids appended to region `regidx`: for every ridge
whose generator pair contains a seed mapped to this region and whose original
vertex pair contains the sentinel, the patched id stored in
`newridgevertices` at the sentinel's position
(`myidx = 0 if ridgevs[0] == -1 else 1`). -/
def ridgeAdditions (tess : Tessellation) (newridgevertices : List (ℤ × ℤ))
    (regidx : ℕ) : List ℤ :=
  let seedIdxs := (List.range tess.point_region.length).filter
    (fun s => tess.point_region.getD s 0 == regidx)
  ((List.range tess.ridge_points.length).filter (fun ridgeid =>
      (seedIdxs.any (fun s =>
        (tess.ridge_points.getD ridgeid (0, 0)).1 == s ||
        (tess.ridge_points.getD ridgeid (0, 0)).2 == s)) &&
      ((tess.ridge_vertices.getD ridgeid (0, 0)).1 == -1 ||
        (tess.ridge_vertices.getD ridgeid (0, 0)).2 == -1))).map
    (fun ridgeid =>
      if (tess.ridge_vertices.getD ridgeid (0, 0)).1 == -1 then
        (newridgevertices.getD ridgeid (0, 0)).1
      else
        (newridgevertices.getD ridgeid (0, 0)).2)

/-- The first loop of `get_boxed_polygons`: every region containing the
sentinel gets the replacement ids appended and then its (first) sentinel
removed (`.remove(-1)`); other regions are kept as they are. -/
def patchRegions (tess : Tessellation) (newridgevertices : List (ℤ × ℤ)) :
    List (List ℤ) :=
  (List.range tess.regions.length).map (fun regidx =>
    let rr := tess.regions.getD regidx []
    if (-1 : ℤ) ∈ rr then
      (rr ++ ridgeAdditions tess newridgevertices regidx).erase (-1)
    else rr)

/-- The four corners of the rectangle, in the order generated by
`itertools.product((encbox[0], encbox[2]), (encbox[1], encbox[3]))`. -/
def cornersOf (b : EncBox) : List Pt :=
  [(b.xmin, b.ymin), (b.xmin, b.ymax), (b.xmax, b.ymin), (b.xmax, b.ymax)]

/-- Squared Euclidean distance (order-equivalent to the Euclidean distance
used by `KDTree.query`). -/
def sqdist (a b : Pt) : ℚ := (a.1 - b.1) ^ 2 + (a.2 - b.2) ^ 2

/-- The index of the seed nearest to `c` (least index on exact ties),
embedding `KDTree(vor.points).query(c)`. -/
def nearestSeed (points : List Pt) (c : Pt) : ℕ :=
  (List.range points.length).foldl (fun best i =>
    if sqdist (points.getD i (0, 0)) c < sqdist (points.getD best (0, 0)) c then i
    else best) 0

/-- The corner loop of `get_boxed_polygons`: each corner is appended to the
vertex array, and its new id is appended to the region owned by the seed
nearest to that corner. -/
def addCorners (tess : Tessellation) (nvv : List Pt) (regions : List (List ℤ))
    (b : EncBox) : List Pt × List (List ℤ) :=
  (cornersOf b).foldl (fun st c =>
    let idx := nearestSeed tess.points c
    let r := tess.point_region.getD idx 0
    (st.1 ++ [c], st.2.set r (st.2.getD r [] ++ [(st.1.length : ℤ)]))) (nvv, regions)

/-- The final loop of `get_boxed_polygons`: empty regions are skipped
(`if len(reg) == 0: continue`); for the rest the external convex-hull
primitive is applied (`hull` returns `none` exactly when
`scipy.spatial.ConvexHull` raises `QhullError`; on success it returns
`points[hull.vertices]`, the extreme points in counterclockwise order). -/
def hullPolys (hull : List Pt → Option (List Pt)) (nvv : List Pt) :
    List (List ℤ) → Except GeomError (List (List Pt))
  | [] => .ok []
  | reg :: rest =>
    if reg.length = 0 then hullPolys hull nvv rest
    else
      match hull (reg.map (fun id => pyGetD nvv id)) with
      | none => .error .qhullError
      | some pp =>
        match hullPolys hull nvv rest with
        | .error e => .error e
        | .ok acc => .ok (pp :: acc)

/-- Embedding of `get_boxed_polygons(vor, newvorvertices, newridgevertices,
encbox)` with the convex-hull primitive abstracted as `hull`. -/
def get_boxed_polygons (hull : List Pt → Option (List Pt)) (tess : Tessellation)
    (newvorvertices : List Pt) (newridgevertices : List (ℤ × ℤ)) (encbox : EncBox) :
    Except GeomError (List (List Pt)) :=
  let patched := patchRegions tess newridgevertices
  let st := addCorners tess newvorvertices patched encbox
  hullPolys hull st.1 st.2

/-- What C3 asserts of each produced cell: a closed convex polygon with at
least 3 pairwise-distinct vertices, strictly positive area, strict convex
position, and simplicity (non-adjacent boundary edges are disjoint, adjacent
ones meet only at the shared vertex). -/
def IsValidClippedCell (L : List Pt) : Prop :=
  3 ≤ L.length ∧ StrictConvexCCW L ∧ 0 < shoelace2 L ∧
  (∀ a < L.length, ∀ b < L.length, a ≠ b → cyc L a ≠ cyc L b) ∧
  (∀ i < L.length, ∀ j < L.length, j ≠ i → j ≠ (i + 1) % L.length →
    (j + 1) % L.length ≠ i →
    ∀ p, onSeg (cyc L i) (cyc L ((i + 1) % L.length)) p →
      onSeg (cyc L j) (cyc L ((j + 1) % L.length)) p → False) ∧
  (∀ i < L.length,
    ∀ p, onSeg (cyc L i) (cyc L ((i + 1) % L.length)) p →
      onSeg (cyc L ((i + 1) % L.length)) (cyc L ((i + 2) % L.length)) p →
      p = cyc L ((i + 1) % L.length))

/-! ### Domain clipper: `compute_cells_bounded_by_polygon` (source 196-202) -/

/-- The closed region covered by a convex counterclockwise ring: the points
weakly left of every directed boundary edge. -/
def coveredConvex (ring : List Pt) : Set Pt :=
  {p | ∀ i < ring.length, 0 ≤ ccw (cyc ring i) (cyc ring ((i + 1) % ring.length)) p}

/-- Modelled from the spec: polygon intersection
(`shapely.geometry.Polygon.intersection`, an external primitive) is "Boolean
AND on the two polygons' covered areas"; the embedding represents each
polygon by its covered area. -/
def polyIntersection (c mappoly : List Pt) : Set Pt :=
  coveredConvex c ∩ coveredConvex mappoly

/-- Embedding of `compute_cells_bounded_by_polygon(cells, mappoly)`:
intersect every cell polygon with the map polygon, in order. -/
def compute_cells_bounded_by_polygon (cells : List (List Pt)) (mappoly : List Pt) :
    List (Set Pt) :=
  cells.map (fun c => polyIntersection c mappoly)

/-- The unit-square domain of `main`, as a counterclockwise ring
(witness data). -/
def unitSquareCCW : List Pt := [(0, 0), (1, 0), (1, 1), (0, 1)]

/-- A small square cell fully inside the unit square (witness data). -/
def innerSquare : List Pt := [(1/4, 1/4), (1/2, 1/4), (1/2, 1/2), (1/4, 1/2)]

/-- A fixed triangle in strictly convex CCW position (witness data). -/
def demoTriangle : List Pt := [(0, 0), (1, 0), (0, 1)]

/-- A hull primitive stub that always succeeds with `demoTriangle`
(witness data; it satisfies the hull contract). -/
def hullStubTri : List Pt → Option (List Pt) := fun _ => some demoTriangle

/-- Modelled from the spec: the failure behavior the external hull primitive
documents — `scipy.spatial.ConvexHull` raises `QhullError` when given fewer
than 3 points (and for degenerate point sets); here `none` stands for that
raised error, and non-degenerate inputs succeed. -/
def hullStubScipy : List Pt → Option (List Pt) :=
  fun pts => if pts.length < 3 then none else some pts

/-- Witness tessellation for C3: one seed owning one region. -/
def tessC3 : Tessellation :=
  ⟨[(1/2, 1/2)], [], [], [], [[0]], [0]⟩

/-- Counterexample tessellation for C7: region 0 resolves to the two vertex
ids `[0, 1]` (no seed is mapped to it, so it receives no corners), and the
single seed's region 1 collects the four rectangle corners. -/
def tessC7a : Tessellation :=
  ⟨[(1/2, 1/2)], [], [], [], [[0, 1], []], [1]⟩

/-- Counterexample tessellation for C7's silent-skip half: region 0 resolves
to zero vertices and is skipped without any error. -/
def tessC7b : Tessellation :=
  ⟨[(1/2, 1/2)], [], [], [], [[], [0, 1, 2]], [1]⟩

/-! ### Adjacency graph builder: `create_graph_from_polys` (source 224-270) -/

/-- Euclidean distance between two points (`np.linalg.norm(p1 - p2)`,
`scipy.spatial.distance.cdist`). -/
noncomputable def euclid (a b : Pt) : ℝ :=
  Real.sqrt (((a.1 - b.1) ^ 2 + (a.2 - b.2) ^ 2 : ℚ) : ℝ)

/-- The deduplicated coordinate list across all polygon rings — the Python
`set` of all `(x, y)` boundary coordinates, keyed by exact value equality.
(The set's iteration order is abstracted as a deterministic dedup; no claim
depends on the order.)  A ring is `shapely`'s `exterior.coords`, which lists
the closing coordinate again at the end. -/
def ringCoordsUnion (polys : List (List Pt)) : List Pt := polys.flatten.dedup

/-- Position of a coordinate in the coordinate list (the `coordsidx`
dictionary lookup). -/
def idxOf (coords : List Pt) (p : Pt) : ℕ :=
  match coords with
  | [] => 0
  | c :: cs => if c = p then 0 else idxOf cs p + 1

/-- Edges of one ring: for `i in range(m)`, the edge from the index of
`ring[i]` to the index of `ring[(i+1) % m]` in the coordinate list. -/
def ringEdges (coords : List Pt) (ring : List Pt) : List (ℕ × ℕ) :=
  (List.range ring.length).map (fun i =>
    (idxOf coords (ring.getD i (0, 0)),
     idxOf coords (ring.getD ((i + 1) % ring.length) (0, 0))))

/-- All edges appended over all rings, in order (source loop over `polys`). -/
def graphEdges (polys : List (List Pt)) : List (ℕ × ℕ) :=
  (polys.map (ringEdges (ringCoordsUnion polys))).flatten

/-- The weights appended in lockstep with the edges: the Euclidean length of
each ring segment. -/
noncomputable def graphWeights (polys : List (List Pt)) : List ℝ :=
  (polys.map (fun ring => (List.range ring.length).map (fun i =>
    euclid (ring.getD i (0, 0)) (ring.getD ((i + 1) % ring.length) (0, 0))))).flatten

/-- An undirected edge's canonical key. -/
def undirKey (e : ℕ × ℕ) : ℕ × ℕ := (min e.1 e.2, max e.1 e.2)

/-- Collapse duplicate undirected edges, keeping one representative
(which representative is kept is irrelevant to the claims). -/
def dedupEdges : List (ℕ × ℕ) → List (ℕ × ℕ)
  | [] => []
  | e :: es =>
    let r := dedupEdges es
    if undirKey e ∈ r.map undirKey then r else e :: r

/-- Embedding of `igraph.Graph.simplify()` with default arguments: removes self-loops and
collapses multiple (parallel, orientation-insensitive) edges. -/
def simplifyEdges (es : List (ℕ × ℕ)) : List (ℕ × ℕ) :=
  dedupEdges (es.filter (fun e => decide (e.1 ≠ e.2)))

/-- The vertex attribute `x`: `g.vs['x'] = coords[:, 0]` (source line 266). -/
def graphXAttr (polys : List (List Pt)) : List ℚ :=
  (ringCoordsUnion polys).map Prod.fst

/-- The vertex attribute `y`: the source line 267 reads
`g.vs['y'] = coords[:, 0]` — column 0 again. -/
def graphYAttr (polys : List (List Pt)) : List ℚ :=
  (ringCoordsUnion polys).map Prod.fst

/-- The graph record after the attribute assignments. -/
structure IGraph where
  nvertices : ℕ
  edges : List (ℕ × ℕ)
  xattr : List ℚ
  yattr : List ℚ
  weights : List ℝ

/-- The error `python-igraph` raises (`ValueError`) when an attribute value list's length
differs from the (simplified) edge count. -/
inductive GraphError where
  | attrLengthMismatch
deriving DecidableEq

/-- Embedding of `create_graph_from_polys(polys)`: build one vertex per
distinct coordinate, one edge and one weight per consecutive ring pair,
`simplify()` the graph (dropping self-loops and parallel edges), assign the
vertex attributes, then assign `g.es['weight'] = weights`, which fails when
the weights list no longer matches the simplified edge count. -/
noncomputable def create_graph_from_polys (polys : List (List Pt)) :
    Except GraphError IGraph :=
  let coords := ringCoordsUnion polys
  let weights := graphWeights polys
  let simplified := simplifyEdges (graphEdges polys)
  if weights.length ≠ simplified.length then .error .attrLengthMismatch
  else .ok ⟨coords.length, simplified, graphXAttr polys, graphYAttr polys, weights⟩

/-! ### Statistics aggregator (source 334-348) -/

/-- An IEEE-754 value as produced by the shortest-path pipeline: a finite
value, `inf` (disconnected pair), or `nan`. -/
inductive VFloat where
  | fin (q : ℚ)
  | inf
  | nan
deriving DecidableEq

/-- IEEE addition on the modelled values (`nan` propagates; `inf` absorbs
finite values; `-inf` cannot arise from nonnegative distances and is not
modelled). -/
def vadd : VFloat → VFloat → VFloat
  | .nan, _ => .nan
  | _, .nan => .nan
  | .inf, _ => .inf
  | _, .inf => .inf
  | .fin a, .fin b => .fin (a + b)

def isFin : VFloat → Bool
  | .fin _ => true
  | _ => false

def toRat : VFloat → ℚ
  | .fin q => q
  | _ => 0

/-- Embedding of `np.sum(shortestpaths)`: row-major fold of the whole matrix. -/
def npSum (m : List (List VFloat)) : VFloat := m.flatten.foldl vadd (.fin 0)

/-- The sum of the finite entries of the matrix. -/
def finTotal (m : List (List VFloat)) : ℚ := (m.flatten.map toRat).sum

/-- Division of an IEEE value by an integer, with numpy's semantics for the
reachable cases: `0/0 = nan`, `positive/0 = inf`, `inf/nonnegative = inf`,
`finite/nonzero` exact.  (`negative/0 = -inf` and `inf/negative = -inf`
cannot arise from distance matrices and are mapped to `nan`.) -/
def vdivInt (x : VFloat) (d : ℤ) : VFloat :=
  match x with
  | .nan => .nan
  | .inf => if 0 ≤ d then .inf else .nan
  | .fin a =>
    if d = 0 then (if a = 0 then .nan else if 0 < a then .inf else .nan)
    else .fin (a / (d : ℚ))

/-- Embedding of `avgpathlength = np.sum(shortestpaths) / (n * (n - 1))`
(source lines 335-336), over the distance matrix returned by the external
shortest-path primitive. -/
def avgpathlength (sp : List (List VFloat)) (n : ℕ) : VFloat :=
  vdivInt (npSum sp) ((n : ℤ) * ((n : ℤ) - 1))

/-- Embedding of
`scipy.spatial.distance.cdist(centroids, points).diagonal()` (source line
343): the i-th polygon centroid is paired with the i-th seed by raw index;
`orderedcentroids` (line 342) is computed but never used. -/
noncomputable def centroidsdists (centroids points : List Pt) : List ℝ :=
  List.zipWith euclid centroids points

/-- Modelled from the spec: the displacement the claim describes — each seed
paired with the centroid of its own polygon through the point-to-region
mapping. -/
noncomputable def centroidsdists_specRule (centroids : List Pt)
    (point_region : List ℕ) (points : List Pt) : List ℝ :=
  (List.range points.length).map (fun i =>
    euclid (centroids.getD (point_region.getD i 0) (0, 0)) (points.getD i (0, 0)))

theorem minStep_le (m d : ℚ) : minStep m d ≤ m := by
  unfold minStep
  split
  · exact le_refl m
  · split
    · exact le_of_lt (by assumption)
    · exact le_refl m

theorem foldl_minStep_le (L : List ℚ) (m : ℚ) : L.foldl minStep m ≤ m := by
  induction L generalizing m with
  | nil => exact le_refl m
  | cons a L ih => exact le_trans (ih (minStep m a)) (minStep_le m a)

theorem foldl_minStep_le_mem {L : List ℚ} {d : ℚ} (hd : d ∈ L) (h0 : 0 ≤ d) (m : ℚ) :
    L.foldl minStep m ≤ d := by
  induction L generalizing m with
  | nil => cases hd
  | cons a L ih =>
    rcases List.mem_cons.mp hd with h | h
    · subst h
      refine le_trans (foldl_minStep_le L (minStep m d)) ?_
      unfold minStep
      split
      · exact absurd h0 (not_le.mpr (by assumption))
      · split
        · exact le_refl d
        · exact not_lt.mp (by assumption)
    · exact ih h (minStep m a)

theorem foldl_minStep_nonneg {L : List ℚ} {m : ℚ} (hm : 0 ≤ m) :
    0 ≤ L.foldl minStep m := by
  induction L generalizing m with
  | nil => exact hm
  | cons a L ih =>
    refine ih ?_
    unfold minStep
    split
    · exact hm
    · split
      · exact not_lt.mp (by assumption)
      · exact hm

theorem foldl_minStep_all_neg {L : List ℚ} (h : ∀ d ∈ L, d < 0) (m : ℚ) :
    L.foldl minStep m = m := by
  induction L generalizing m with
  | nil => rfl
  | cons a L ih =>
    have ha : a < 0 := h a (List.mem_cons_self a L)
    have : minStep m a = m := by unfold minStep; simp [ha]
    rw [List.foldl_cons, this]
    exact ih (fun d hd => h d (List.mem_cons_of_mem a hd)) m

theorem foldl_minStep_attained (L : List ℚ) (m : ℚ) :
    L.foldl minStep m = m ∨ ∃ d ∈ L, 0 ≤ d ∧ L.foldl minStep m = d := by
  induction L generalizing m with
  | nil => exact Or.inl rfl
  | cons a L ih =>
    rw [List.foldl_cons]
    rcases ih (minStep m a) with h | ⟨d, hd, h0, he⟩
    · rw [h]
      unfold minStep
      split
      · exact Or.inl rfl
      · split
        · exact Or.inr ⟨a, List.mem_cons_self a L, not_lt.mp (by assumption), rfl⟩
        · exact Or.inl rfl
    · exact Or.inr ⟨d, List.mem_cons_of_mem a hd, h0, he⟩

theorem div_mul_orient {c v a o : ℚ} (ho2 : o * o = 1) (ha : a ≠ 0) :
    (c - v) / a * o = (c - v) / (o * a) := by
  have ho : o ≠ 0 := by
    intro h; rw [h, mul_zero] at ho2; exact one_ne_zero ho2.symm
  rw [div_mul_eq_mul_div, div_eq_div_iff ha (mul_ne_zero ho ha)]
  linear_combination (c - v) * a * ho2

/-- Key clipping bound for one coordinate: if the finite endpoint's coordinate
lies between the two rectangle bounds for its axis, so does the corresponding
coordinate of `v0 + orient * alpha * mindist`. -/
theorem clip_coord_of_sides (v0 alpha : Pt) (orient : ℚ) (b : EncBox) (lo hi : ℚ) (i : ℕ)
    (ho2 : orient * orient = 1)
    (hlos : (lo, i) ∈ sidesOf b) (hhis : (hi, i) ∈ sidesOf b)
    (hlo : lo ≤ coordAt v0 i) (hhi : coordAt v0 i ≤ hi) :
    lo ≤ coordAt v0 i + orient * coordAt alpha i *
        (((sidesOf b).map (sideDist v0 alpha orient)).foldl minStep 999999999) ∧
    coordAt v0 i + orient * coordAt alpha i *
        (((sidesOf b).map (sideDist v0 alpha orient)).foldl minStep 999999999) ≤ hi := by
  set vi := coordAt v0 i with hvi
  set ai := coordAt alpha i with hai
  set md := ((sidesOf b).map (sideDist v0 alpha orient)).foldl minStep 999999999 with hmd
  have hmd0 : 0 ≤ md := foldl_minStep_nonneg (by norm_num)
  by_cases hai0 : ai = 0
  · rw [hai0]
    constructor <;> simp [hlo, hhi]
  · have hb : orient * ai ≠ 0 := by
      have ho : orient ≠ 0 := by
        intro h; rw [h, zero_mul] at ho2; exact one_ne_zero ho2.symm
      exact mul_ne_zero ho hai0
    rcases hb.lt_or_lt with hneg | hpos
    · -- moving toward the lower bound: bounded by the `lo` side's candidate
      have hdval : sideDist v0 alpha orient (lo, i) = (lo - vi) / (orient * ai) := by
        unfold sideDist
        rw [← hai, ← hvi, if_neg hai0]
        exact div_mul_orient ho2 hai0
      have hd0 : 0 ≤ (lo - vi) / (orient * ai) :=
        div_nonneg_of_nonpos (sub_nonpos.mpr hlo) (le_of_lt hneg)
      have hle : md ≤ (lo - vi) / (orient * ai) := by
        rw [hmd, ← hdval]
        exact foldl_minStep_le_mem (List.mem_map_of_mem _ hlos) (hdval ▸ hd0) _
      have hmul : (orient * ai) * ((lo - vi) / (orient * ai)) ≤ (orient * ai) * md :=
        mul_le_mul_of_nonpos_left hle (le_of_lt hneg)
      rw [mul_div_cancel₀ _ hb] at hmul
      have hup : orient * ai * md ≤ 0 :=
        mul_nonpos_of_nonpos_of_nonneg (le_of_lt hneg) hmd0
      constructor <;> nlinarith [hmul, hup]
    · -- moving toward the upper bound: bounded by the `hi` side's candidate
      have hdval : sideDist v0 alpha orient (hi, i) = (hi - vi) / (orient * ai) := by
        unfold sideDist
        rw [← hai, ← hvi, if_neg hai0]
        exact div_mul_orient ho2 hai0
      have hd0 : 0 ≤ (hi - vi) / (orient * ai) :=
        div_nonneg (sub_nonneg.mpr hhi) (le_of_lt hpos)
      have hle : md ≤ (hi - vi) / (orient * ai) := by
        rw [hmd, ← hdval]
        exact foldl_minStep_le_mem (List.mem_map_of_mem _ hhis) (hdval ▸ hd0) _
      have hmul : (orient * ai) * md ≤ (orient * ai) * ((hi - vi) / (orient * ai)) :=
        mul_le_mul_of_nonneg_left hle (le_of_lt hpos)
      rw [mul_div_cancel₀ _ hb] at hmul
      have hdn : 0 ≤ orient * ai * md := mul_nonneg (le_of_lt hpos) hmd0
      constructor <;> nlinarith [hmul, hdn]

/-- C1, counterexample.  The inputs are exactly those the ridge clipper feeds
to `get_crossing_point_rectangle` for the Voronoi tessellation of the four
seeds `(0,0), (1,0), (1/2,1/10), (1/2,3)` with clipping rectangle
`[0,0,1,1]`: the ridge separating seeds `(0,0)` and `(1,0)` is unbounded with
finite endpoint `V = (1/2, -6/5)` (the circumcenter of the first three seeds,
outside the rectangle), tangent `t = (1,0)`, normal `n = (0,1)`, and
`orient = sign((midpoint - center)·n) = -1`.  The replacement vertex is
`(1/2, -17/10)`, strictly outside the rectangle. -/
theorem c1_counterexample :
    get_crossing_point_rectangle (1/2, -6/5) (0, 1) (-1) ⟨0, 0, 1, 1⟩ = (1/2, -17/10) ∧
    ¬ inBox (1/2, -17/10) ⟨0, 0, 1, 1⟩ := by
  constructor
  · norm_num [get_crossing_point_rectangle, sidesOf, sideDist, coordAt, minStep,
      List.foldl_cons, List.foldl_nil]
  · norm_num [inBox]

/-- C1, amended: whenever the finite endpoint `V` lies inside or on the
boundary of the clipping rectangle (and `orient` is a sign value, as produced
by `np.sign`), the replacement vertex computed by
`get_crossing_point_rectangle` lies inside or on the boundary of the
rectangle. -/
theorem c1_crossing_point_in_box (v0 alpha : Pt) (orient : ℚ) (b : EncBox)
    (ho : orient = -1 ∨ orient = 0 ∨ orient = 1) (hv : inBox v0 b) :
    inBox (get_crossing_point_rectangle v0 alpha orient b) b := by
  obtain ⟨h1, h2, h3, h4⟩ := hv
  have hca0 : ∀ p : Pt, coordAt p 0 = p.1 := fun p => rfl
  have hca1 : ∀ p : Pt, coordAt p 1 = p.2 := fun p => rfl
  rcases ho with ho | ho | ho
  · subst ho
    have hx := clip_coord_of_sides v0 alpha (-1) b b.xmin b.xmax 0 (by norm_num)
      (by simp [sidesOf]) (by simp [sidesOf]) (by rw [hca0]; exact h1)
      (by rw [hca0]; exact h2)
    have hy := clip_coord_of_sides v0 alpha (-1) b b.ymin b.ymax 1 (by norm_num)
      (by simp [sidesOf]) (by simp [sidesOf]) (by rw [hca1]; exact h3)
      (by rw [hca1]; exact h4)
    rw [hca0, hca0] at hx
    rw [hca1, hca1] at hy
    exact ⟨hx.1, hx.2, hy.1, hy.2⟩
  · subst ho
    refine ⟨?_, ?_, ?_, ?_⟩ <;>
      simp [get_crossing_point_rectangle, h1, h2, h3, h4]
  · subst ho
    have hx := clip_coord_of_sides v0 alpha 1 b b.xmin b.xmax 0 (by norm_num)
      (by simp [sidesOf]) (by simp [sidesOf]) (by rw [hca0]; exact h1)
      (by rw [hca0]; exact h2)
    have hy := clip_coord_of_sides v0 alpha 1 b b.ymin b.ymax 1 (by norm_num)
      (by simp [sidesOf]) (by simp [sidesOf]) (by rw [hca1]; exact h3)
      (by rw [hca1]; exact h4)
    rw [hca0, hca0] at hx
    rw [hca1, hca1] at hy
    exact ⟨hx.1, hx.2, hy.1, hy.2⟩

/-- Witness for `c1_crossing_point_in_box` at a concrete input. -/
theorem c1_crossing_point_in_box_witness :
    ((1 : ℚ) = -1 ∨ (1 : ℚ) = 0 ∨ (1 : ℚ) = 1) ∧
    inBox (1/2, 1/2) ⟨0, 0, 1, 1⟩ ∧
    inBox (get_crossing_point_rectangle (1/2, 1/2) (0, 1) 1 ⟨0, 0, 1, 1⟩) ⟨0, 0, 1, 1⟩ :=
  ⟨by norm_num, by norm_num [inBox],
    c1_crossing_point_in_box (1/2, 1/2) (0, 1) 1 ⟨0, 0, 1, 1⟩ (by norm_num)
      (by norm_num [inBox])⟩

/-- C2, counterexample.  At `V = (1/2, 9/10)`, `n = (1, 0)`, `orient = 1`,
rectangle `[0,0,1,1]`: the y-axis normal component is zero and `V` is inside
both y-bounds, so under the claim's rule both y-sides are skipped and the
result would be `(1, 9/10)` (crossing distance `1/2` to `xmax`).  The code
instead lets the `ymax` side contribute the raw offset `(1 - 9/10)*1 = 1/10`,
which wins the minimum, and returns the interior point `(3/5, 9/10)`. -/
theorem c2_counterexample :
    get_crossing_point_rectangle (1/2, 9/10) (1, 0) 1 ⟨0, 0, 1, 1⟩ = (3/5, 9/10) ∧
    crossing_point_rectangle_specRule (1/2, 9/10) (1, 0) 1 ⟨0, 0, 1, 1⟩ = (1, 9/10) ∧
    ((3/5 : ℚ), (9/10 : ℚ)) ≠ ((1 : ℚ), (9/10 : ℚ)) := by
  refine ⟨?_, ?_, ?_⟩ <;>
    norm_num [get_crossing_point_rectangle, crossing_point_rectangle_specRule,
      specSideCandidate, sidesOf, sideDist, coordAt, minStep,
      List.foldl_cons, List.foldl_nil, List.filterMap]

/-- C2, amended: the returned point equals `V + orient*n*mindist`, where
`mindist` is the smallest non-negative per-side candidate distance (or the
initializer `999999999` when no candidate is non-negative); the candidate of a
side with nonzero normal component along its axis is the crossing distance
`(c - V_i)/n_i*orient`, and the candidate of a side whose axis has zero
normal component is the raw offset `(c - V_i)*orient` (that side is neither
skipped nor clamped to 0; see `sideDist`). -/
theorem c2_min_nonneg_candidate (v0 alpha : Pt) (orient : ℚ) (b : EncBox) :
    get_crossing_point_rectangle v0 alpha orient b =
      (v0.1 + orient * alpha.1 * minDistOf v0 alpha orient b,
       v0.2 + orient * alpha.2 * minDistOf v0 alpha orient b) ∧
    0 ≤ minDistOf v0 alpha orient b ∧
    (∀ s ∈ sidesOf b, 0 ≤ sideDist v0 alpha orient s →
      minDistOf v0 alpha orient b ≤ sideDist v0 alpha orient s) ∧
    (minDistOf v0 alpha orient b = 999999999 ∨
      ∃ s ∈ sidesOf b, 0 ≤ sideDist v0 alpha orient s ∧
        minDistOf v0 alpha orient b = sideDist v0 alpha orient s) := by
  refine ⟨rfl, foldl_minStep_nonneg (by norm_num), ?_, ?_⟩
  · intro s hs h0
    exact foldl_minStep_le_mem (List.mem_map_of_mem _ hs) h0 _
  · rcases foldl_minStep_attained ((sidesOf b).map (sideDist v0 alpha orient)) 999999999
      with h | ⟨d, hd, h0, he⟩
    · exact Or.inl h
    · obtain ⟨s, hs, rfl⟩ := List.mem_map.mp hd
      exact Or.inr ⟨s, hs, h0, he⟩

/-- C10: `get_crossing_point_rectangle` is a total function (the embedding is
a plain `def`; the source has no failure path), and when every per-side
candidate distance is negative, `mindist` keeps the initializer `999999999`
and the returned point is `v0 + orient*alpha*999999999`. -/
theorem c10_all_candidates_negative (v0 alpha : Pt) (orient : ℚ) (b : EncBox)
    (h : ∀ s ∈ sidesOf b, sideDist v0 alpha orient s < 0) :
    minDistOf v0 alpha orient b = 999999999 ∧
    get_crossing_point_rectangle v0 alpha orient b =
      (v0.1 + orient * alpha.1 * 999999999, v0.2 + orient * alpha.2 * 999999999) := by
  have hm : minDistOf v0 alpha orient b = 999999999 := by
    unfold minDistOf
    refine foldl_minStep_all_neg (fun d hd => ?_) _
    obtain ⟨s, hs, rfl⟩ := List.mem_map.mp hd
    exact h s hs
  refine ⟨hm, ?_⟩
  show (v0.1 + orient * alpha.1 * minDistOf v0 alpha orient b,
        v0.2 + orient * alpha.2 * minDistOf v0 alpha orient b) = _
  rw [hm]

/-- Witness for `c10_all_candidates_negative`: with `v0 = (2,2)` outside the
rectangle and direction `(1,1)`, all four candidates are negative and the
function returns `(1000000001, 1000000001)`. -/
theorem c10_witness :
    (∀ s ∈ sidesOf ⟨0, 0, 1, 1⟩, sideDist (2, 2) (1, 1) 1 s < 0) ∧
    get_crossing_point_rectangle (2, 2) (1, 1) 1 ⟨0, 0, 1, 1⟩ =
      (1000000001, 1000000001) := by
  have h : ∀ s ∈ sidesOf (⟨0, 0, 1, 1⟩ : EncBox), sideDist (2, 2) (1, 1) 1 s < 0 := by
    intro s hs
    simp only [sidesOf, List.mem_cons, List.not_mem_nil, or_false] at hs
    rcases hs with rfl | rfl | rfl | rfl <;> norm_num [sideDist, coordAt]
  refine ⟨h, ?_⟩
  rw [(c10_all_candidates_negative (2, 2) (1, 1) 1 ⟨0, 0, 1, 1⟩ h).2]
  norm_num

theorem ccw_rotate (a b c : Pt) : ccw a b c = ccw b c a := by
  unfold ccw; ring

theorem ccw_left_self (a b : Pt) : ccw a b a = 0 := by
  unfold ccw; ring

theorem ccw_right_self (a b : Pt) : ccw a b b = 0 := by
  unfold ccw; ring

theorem ccw_first_self (a c : Pt) : ccw a a c = 0 := by
  unfold ccw; ring

theorem ccw_onSeg_zero {a b p : Pt} (hp : onSeg a b p) : ccw a b p = 0 := by
  obtain ⟨t, _, _, rfl⟩ := hp
  unfold ccw; ring

theorem ccw_onSeg_pos {A B a b p : Pt} (ha : 0 < ccw A B a) (hb : 0 < ccw A B b)
    (hp : onSeg a b p) : 0 < ccw A B p := by
  obtain ⟨t, ht0, ht1, rfl⟩ := hp
  have haff : ccw A B (a.1 + t * (b.1 - a.1), a.2 + t * (b.2 - a.2)) =
      (1 - t) * ccw A B a + t * ccw A B b := by
    unfold ccw; ring
  rw [haff]
  rcases lt_or_ge t 1 with h1 | h1
  · nlinarith [mul_pos (show (0:ℚ) < 1 - t by linarith) ha, mul_nonneg ht0 hb.le]
  · have ht1' : t = 1 := le_antisymm ht1 h1
    rw [ht1']
    linarith [hb]

theorem succ_mod_ne_self {m i : ℕ} (hm : 3 ≤ m) (hi : i < m) : (i + 1) % m ≠ i := by
  rcases Nat.lt_or_ge (i + 1) m with h | h
  · rw [Nat.mod_eq_of_lt h]; omega
  · have hi1 : i + 1 = m := by omega
    rw [hi1, Nat.mod_self]; omega

theorem succ_mod_inj {m i j : ℕ} (hi : i < m) (hj : j < m)
    (h : (i + 1) % m = (j + 1) % m) : i = j := by
  rcases Nat.lt_or_ge (i + 1) m with h1 | h1 <;> rcases Nat.lt_or_ge (j + 1) m with h2 | h2
  · rw [Nat.mod_eq_of_lt h1, Nat.mod_eq_of_lt h2] at h; omega
  · have : j + 1 = m := by omega
    rw [Nat.mod_eq_of_lt h1, this, Nat.mod_self] at h; omega
  · have : i + 1 = m := by omega
    rw [Nat.mod_eq_of_lt h2, this, Nat.mod_self] at h; omega
  · omega

theorem add_two_mod_ne_self {m i : ℕ} (hm : 3 ≤ m) (hi : i < m) : (i + 2) % m ≠ i := by
  rcases Nat.lt_or_ge (i + 2) m with h | h
  · rw [Nat.mod_eq_of_lt h]; omega
  · have hsub : (i + 2) % m = i + 2 - m := by
      rw [Nat.mod_eq_sub_mod h, Nat.mod_eq_of_lt (by omega)]
    rw [hsub]; omega

/-- In strictly convex position, all vertices are pairwise distinct. -/
theorem strictConvexCCW_distinct {L : List Pt} (h : StrictConvexCCW L) :
    ∀ a < L.length, ∀ b < L.length, a ≠ b → cyc L a ≠ cyc L b := by
  obtain ⟨h3, hsc⟩ := h
  intro a ha b hb hne heq
  by_cases hb1 : b = (a + 1) % L.length
  · have hane : a ≠ (b + 1) % L.length := by
      intro hcontra
      have hb' : (b + 1) % L.length = (a + 2) % L.length := by
        rw [hb1, Nat.mod_add_mod]
      rw [hb'] at hcontra
      exact add_two_mod_ne_self h3 ha hcontra.symm
    have hpos := hsc b hb a ha hne hane
    rw [heq, ccw_left_self] at hpos
    exact lt_irrefl 0 hpos
  · have hpos := hsc a ha b hb hne.symm hb1
    rw [← heq, ccw_left_self] at hpos
    exact lt_irrefl 0 hpos

theorem sum_cyclic_shift (g : ℕ → ℚ) (m : ℕ) (hm : 0 < m) :
    ∑ i ∈ Finset.range m, g ((i + 1) % m) = ∑ i ∈ Finset.range m, g i := by
  cases m with
  | zero => omega
  | succ n =>
    rw [Finset.sum_range_succ, Finset.sum_range_succ']
    congr 1
    · refine Finset.sum_congr rfl (fun i hi => ?_)
      have : i < n := Finset.mem_range.mp hi
      rw [Nat.mod_eq_of_lt (by omega)]
    · rw [Nat.mod_self]

/-- A polygon in strictly convex counterclockwise position has strictly
positive (twice-)shoelace area. -/
theorem strictConvexCCW_area_pos {L : List Pt} (h : StrictConvexCCW L) :
    0 < shoelace2 L := by
  obtain ⟨h3, hsc⟩ := h
  set m := L.length with hm
  have hm0 : 0 < m := by omega
  have hstep : shoelace2 L =
      ∑ i ∈ Finset.range m, ccw (cyc L 0) (cyc L i) (cyc L ((i + 1) % m)) := by
    have hpt : ∀ i ∈ Finset.range m,
        cross (cyc L i) (cyc L ((i + 1) % m)) =
          ccw (cyc L 0) (cyc L i) (cyc L ((i + 1) % m)) -
            cross (cyc L 0) (cyc L i) + cross (cyc L 0) (cyc L ((i + 1) % m)) := by
      intro i _
      unfold ccw cross
      ring
    unfold shoelace2
    rw [← hm, Finset.sum_congr rfl hpt, Finset.sum_add_distrib, Finset.sum_sub_distrib,
      sum_cyclic_shift (fun j => cross (cyc L 0) (cyc L j)) m hm0]
    ring
  rw [hstep]
  refine Finset.sum_pos' ?_ ⟨1, Finset.mem_range.mpr (by omega), ?_⟩
  · intro i hi
    have him : i < m := Finset.mem_range.mp hi
    by_cases h0 : i = 0
    · rw [h0, ccw_first_self]
    · by_cases hlast : (i + 1) % m = 0
      · rw [hlast, ccw_left_self]
      · have hpos := hsc i him 0 hm0 (Ne.symm h0) (Ne.symm hlast)
        rw [ccw_rotate]
        exact le_of_lt hpos
  · have h2m : (1 + 1) % m = 2 := Nat.mod_eq_of_lt (by omega)
    have hpos := hsc 1 (by omega) 0 hm0 (by omega) (by rw [h2m]; omega)
    rw [ccw_rotate]
    exact hpos

/-- In strictly convex position, two non-adjacent boundary edges share no
point. -/
theorem strictConvexCCW_nonadj_disjoint {L : List Pt} (h : StrictConvexCCW L) :
    ∀ i < L.length, ∀ j < L.length, j ≠ i → j ≠ (i + 1) % L.length →
      (j + 1) % L.length ≠ i →
      ∀ p, onSeg (cyc L i) (cyc L ((i + 1) % L.length)) p →
        onSeg (cyc L j) (cyc L ((j + 1) % L.length)) p → False := by
  obtain ⟨h3, hsc⟩ := h
  intro i hi j hj hji hjsi hsji p hpi hpj
  have hzero : ccw (cyc L i) (cyc L ((i + 1) % L.length)) p = 0 := ccw_onSeg_zero hpi
  have hsj : (j + 1) % L.length < L.length := Nat.mod_lt _ (by omega)
  have hsjne : (j + 1) % L.length ≠ (i + 1) % L.length := by
    intro hcontra
    exact hji (succ_mod_inj hj hi hcontra)
  have ha := hsc i hi j hj hji hjsi
  have hb := hsc i hi ((j + 1) % L.length) hsj hsji hsjne
  have := ccw_onSeg_pos ha hb hpj
  rw [hzero] at this
  exact lt_irrefl 0 this

/-- In strictly convex position, two adjacent boundary edges meet only at
their shared vertex. -/
theorem strictConvexCCW_adj_shared {L : List Pt} (h : StrictConvexCCW L) :
    ∀ i < L.length,
      ∀ p, onSeg (cyc L i) (cyc L ((i + 1) % L.length)) p →
        onSeg (cyc L ((i + 1) % L.length)) (cyc L ((i + 2) % L.length)) p →
        p = cyc L ((i + 1) % L.length) := by
  obtain ⟨h3, hsc⟩ := h
  intro i hi p hpi hpj
  set m := L.length with hm
  have hm0 : 0 < m := by omega
  have hzero : ccw (cyc L i) (cyc L ((i + 1) % m)) p = 0 := ccw_onSeg_zero hpi
  have h2lt : (i + 2) % m < m := Nat.mod_lt _ hm0
  have hsine : (i + 1) % m ≠ i := succ_mod_ne_self h3 hi
  have h2nei : (i + 2) % m ≠ i := add_two_mod_ne_self h3 hi
  have h2nesi : (i + 2) % m ≠ (i + 1) % m := by
    intro hcontra
    have hx : (i + 1) % m < m := Nat.mod_lt _ hm0
    refine succ_mod_ne_self h3 hx ?_
    rw [Nat.mod_add_mod]
    exact hcontra
  have hA : 0 < ccw (cyc L i) (cyc L ((i + 1) % m)) (cyc L ((i + 2) % m)) :=
    hsc i hi ((i + 2) % m) h2lt h2nei h2nesi
  obtain ⟨t, ht0, ht1, rfl⟩ := hpj
  have haff : ccw (cyc L i) (cyc L ((i + 1) % m))
      ((cyc L ((i + 1) % m)).1 + t * ((cyc L ((i + 2) % m)).1 - (cyc L ((i + 1) % m)).1),
       (cyc L ((i + 1) % m)).2 + t * ((cyc L ((i + 2) % m)).2 - (cyc L ((i + 1) % m)).2)) =
      (1 - t) * ccw (cyc L i) (cyc L ((i + 1) % m)) (cyc L ((i + 1) % m)) +
        t * ccw (cyc L i) (cyc L ((i + 1) % m)) (cyc L ((i + 2) % m)) := by
    unfold ccw; ring
  rw [ccw_right_self] at haff
  rw [haff] at hzero
  have ht : t = 0 := by
    rcases eq_or_lt_of_le ht0 with h0 | h0
    · exact h0.symm
    · exfalso
      nlinarith [mul_pos h0 hA]
  rw [ht]
  simp

theorem isValidClippedCell_of_strictConvexCCW {L : List Pt}
    (h : StrictConvexCCW L) : IsValidClippedCell L :=
  ⟨h.1, h, strictConvexCCW_area_pos h, strictConvexCCW_distinct h,
    strictConvexCCW_nonadj_disjoint h, strictConvexCCW_adj_shared h⟩

theorem hullPolys_ok_mem {hull : List Pt → Option (List Pt)} {nvv : List Pt}
    {regs : List (List ℤ)} {polys : List (List Pt)}
    (h : hullPolys hull nvv regs = .ok polys) :
    ∀ poly ∈ polys, ∃ pts, hull pts = some poly := by
  induction regs generalizing polys with
  | nil =>
    simp only [hullPolys] at h
    cases h
    intro poly hp
    cases hp
  | cons reg rest ih =>
    simp only [hullPolys] at h
    split at h
    · exact ih h
    · rcases hh : hull (reg.map (fun id => pyGetD nvv id)) with _ | pp
      · rw [hh] at h
        cases h
      · rw [hh] at h
        rcases hr : hullPolys hull nvv rest with e | acc
        · rw [hr] at h
          cases h
        · rw [hr] at h
          cases h
          intro poly hp
          rcases List.mem_cons.mp hp with rfl | hp
          · exact ⟨_, hh⟩
          · exact ih hr poly hp

theorem hullPolys_error_qhull {hull : List Pt → Option (List Pt)} {nvv : List Pt}
    {regs : List (List ℤ)} {e : GeomError}
    (h : hullPolys hull nvv regs = .error e) : e = .qhullError := by
  induction regs with
  | nil => simp only [hullPolys] at h; cases h
  | cons reg rest ih =>
    simp only [hullPolys] at h
    split at h
    · exact ih h
    · rcases hh : hull (reg.map (fun id => pyGetD nvv id)) with _ | pp
      · rw [hh] at h
        cases h
        rfl
      · rw [hh] at h
        rcases hr : hullPolys hull nvv rest with e' | acc
        · rw [hr] at h
          cases h
          exact ih hr
        · rw [hr] at h
          cases h

theorem hullPolys_ok_length {hull : List Pt → Option (List Pt)} {nvv : List Pt}
    {regs : List (List ℤ)} {polys : List (List Pt)}
    (h : hullPolys hull nvv regs = .ok polys) :
    polys.length = regs.countP (fun reg => decide (reg.length ≠ 0)) := by
  induction regs generalizing polys with
  | nil =>
    simp only [hullPolys] at h
    cases h
    rfl
  | cons reg rest ih =>
    simp only [hullPolys] at h
    split at h
    · rw [ih h, List.countP_cons]
      simp [*]
    · rcases hh : hull (reg.map (fun id => pyGetD nvv id)) with _ | pp
      · rw [hh] at h
        cases h
      · rw [hh] at h
        rcases hr : hullPolys hull nvv rest with e' | acc
        · rw [hr] at h
          cases h
        · rw [hr] at h
          cases h
          rw [List.countP_cons]
          simp only [decide_eq_true_eq]
          rw [List.length_cons, ih hr]
          simp [*]

theorem getD_mem_or_default {α : Type} (l : List α) (n : ℕ) (d : α) :
    l.getD n d ∈ l ∨ l.getD n d = d := by
  by_cases h : n < l.length
  · left
    rw [List.getD_eq_getElem l d h]
    exact List.getElem_mem h
  · right
    exact List.getD_eq_default l d (le_of_not_lt h)

theorem ridgeAdditions_nonneg (tess : Tessellation) (nrv : List (ℤ × ℤ)) (regidx : ℕ)
    (hnrv : ∀ rv ∈ nrv, 0 ≤ rv.1 ∧ 0 ≤ rv.2) :
    ∀ x ∈ ridgeAdditions tess nrv regidx, 0 ≤ x := by
  intro x hx
  unfold ridgeAdditions at hx
  obtain ⟨ridgeid, _, rfl⟩ := List.mem_map.mp hx
  have hd : 0 ≤ (nrv.getD ridgeid (0, 0)).1 ∧ 0 ≤ (nrv.getD ridgeid (0, 0)).2 := by
    rcases getD_mem_or_default nrv ridgeid (0, 0) with hm | he
    · exact hnrv _ hm
    · rw [he]
      exact ⟨le_refl 0, le_refl 0⟩
  split
  · exact hd.1
  · exact hd.2

theorem patchRegions_no_sentinel (tess : Tessellation) (nrv : List (ℤ × ℤ))
    (hreg : ∀ rr ∈ tess.regions, rr.count (-1) ≤ 1)
    (hnrv : ∀ rv ∈ nrv, 0 ≤ rv.1 ∧ 0 ≤ rv.2) :
    ∀ reg ∈ patchRegions tess nrv, (-1 : ℤ) ∉ reg := by
  intro reg hregmem
  unfold patchRegions at hregmem
  obtain ⟨regidx, _, rfl⟩ := List.mem_map.mp hregmem
  by_cases hin : (-1 : ℤ) ∈ tess.regions.getD regidx []
  · rw [if_pos hin]
    have hcnt_rr : (tess.regions.getD regidx []).count (-1) ≤ 1 := by
      rcases getD_mem_or_default tess.regions regidx [] with hm | he
      · exact hreg _ hm
      · rw [he]
        simp
    have hcnt_add : (ridgeAdditions tess nrv regidx).count (-1) = 0 := by
      rw [List.count_eq_zero]
      intro hmem
      have := ridgeAdditions_nonneg tess nrv regidx hnrv _ hmem
      omega
    have hpos : 0 < (tess.regions.getD regidx []).count (-1) :=
      List.count_pos_iff.mpr hin
    rw [← List.count_eq_zero, List.count_erase_self, List.count_append, hcnt_add]
    omega
  · rw [if_neg hin]
    exact hin

theorem set_append_keeps_no_sentinel {regions : List (List ℤ)} {r : ℕ} {k : ℤ}
    (hk : 0 ≤ k) (h : ∀ reg ∈ regions, (-1 : ℤ) ∉ reg) :
    ∀ reg ∈ regions.set r (regions.getD r [] ++ [k]), (-1 : ℤ) ∉ reg := by
  intro reg hreg
  rcases List.mem_or_eq_of_mem_set hreg with hmem | rfl
  · exact h reg hmem
  · intro hin
    rcases List.mem_append.mp hin with hin | hin
    · rcases getD_mem_or_default regions r [] with hm | he
      · exact h _ hm hin
      · rw [he] at hin
        cases hin
    · have : (-1 : ℤ) = k := List.mem_singleton.mp hin
      omega

theorem addCorners_no_sentinel (tess : Tessellation) (nvv : List Pt)
    (regions : List (List ℤ)) (b : EncBox)
    (h : ∀ reg ∈ regions, (-1 : ℤ) ∉ reg) :
    ∀ reg ∈ (addCorners tess nvv regions b).2, (-1 : ℤ) ∉ reg := by
  unfold addCorners
  generalize cornersOf b = cs
  induction cs generalizing nvv regions with
  | nil => exact h
  | cons c cs ih =>
    rw [List.foldl_cons]
    exact ih (nvv ++ [c]) _ (set_append_keeps_no_sentinel (Int.natCast_nonneg _) h)

/-- C3: for every successful run of the region closer, the patched regions
contain no sentinel id, and every produced polygon is a valid clipped cell
(closed, convex, simple, pairwise-distinct vertices, strictly positive
area) — given that each input region lists the sentinel at most once (the
tessellation primitive's contract), the patched ridge-vertex ids are
non-sentinel (what the ridge clipper produces), and the hull primitive meets
its documented contract of returning extreme points in counterclockwise
(strictly convex) position. -/
theorem c3_boxed_polygons_valid (hull : List Pt → Option (List Pt))
    (tess : Tessellation) (nvv : List Pt) (nrv : List (ℤ × ℤ)) (b : EncBox)
    (polys : List (List Pt))
    (hok : get_boxed_polygons hull tess nvv nrv b = .ok polys)
    (hhull : ∀ pts out, hull pts = some out → StrictConvexCCW out)
    (hreg : ∀ rr ∈ tess.regions, rr.count (-1) ≤ 1)
    (hnrv : ∀ rv ∈ nrv, 0 ≤ rv.1 ∧ 0 ≤ rv.2) :
    (∀ reg ∈ (addCorners tess nvv (patchRegions tess nrv) b).2, (-1 : ℤ) ∉ reg) ∧
    ∀ poly ∈ polys, IsValidClippedCell poly := by
  constructor
  · exact addCorners_no_sentinel tess nvv _ b (patchRegions_no_sentinel tess nrv hreg hnrv)
  · intro poly hp
    obtain ⟨pts, hpts⟩ := hullPolys_ok_mem hok poly hp
    exact isValidClippedCell_of_strictConvexCCW (hhull pts poly hpts)

theorem demoTriangle_strictConvexCCW : StrictConvexCCW demoTriangle := by
  refine ⟨by norm_num [demoTriangle], ?_⟩
  intro i hi j hj h1 h2
  simp only [demoTriangle, List.length_cons, List.length_nil] at hi hj h2 ⊢
  interval_cases i <;> interval_cases j <;>
    simp_all [cyc, ccw, demoTriangle]

theorem boxed_polygons_tessC3_eval :
    get_boxed_polygons hullStubTri tessC3 [(0, 0)] [] ⟨0, 0, 1, 1⟩ =
      .ok [demoTriangle] := by
  norm_num [get_boxed_polygons, patchRegions, ridgeAdditions, addCorners, cornersOf,
    nearestSeed, sqdist, hullPolys, hullStubTri, tessC3, pyGetD, List.range_succ]

/-- Witness for `c3_boxed_polygons_valid` at a concrete tessellation and a
contract-satisfying hull primitive. -/
theorem c3_boxed_polygons_valid_witness :
    get_boxed_polygons hullStubTri tessC3 [(0, 0)] [] ⟨0, 0, 1, 1⟩ =
      .ok [demoTriangle] ∧
    (∀ reg ∈ (addCorners tessC3 [(0, 0)] (patchRegions tessC3 []) ⟨0, 0, 1, 1⟩).2,
      (-1 : ℤ) ∉ reg) ∧
    ∀ poly ∈ [demoTriangle], IsValidClippedCell poly := by
  have hhull : ∀ pts out, hullStubTri pts = some out → StrictConvexCCW out := by
    intro pts out h
    injection h with h
    rw [← h]
    exact demoTriangle_strictConvexCCW
  have hreg : ∀ rr ∈ tessC3.regions, rr.count (-1) ≤ 1 := by
    intro rr hrr
    simp only [tessC3, List.mem_singleton] at hrr
    subst hrr
    simp
  have hnrv : ∀ rv ∈ ([] : List (ℤ × ℤ)), 0 ≤ rv.1 ∧ 0 ≤ rv.2 := by
    intro rv hrv
    cases hrv
  have hmain := c3_boxed_polygons_valid hullStubTri tessC3 [(0, 0)] [] ⟨0, 0, 1, 1⟩
    [demoTriangle] boxed_polygons_tessC3_eval hhull hreg hnrv
  exact ⟨boxed_polygons_tessC3_eval, hmain.1, hmain.2⟩

/-- C7, amended: the region closer silently skips regions resolving to zero
vertices (the produced polygon list has exactly one entry per nonempty
region), and any failure it surfaces is the propagated error of the external
convex-hull primitive (scipy's `QhullError`); the source defines no
`IllFormedRegionError` and no code path raises one. -/
theorem c7_region_closer_error_behavior (hull : List Pt → Option (List Pt))
    (tess : Tessellation) (nvv : List Pt) (nrv : List (ℤ × ℤ)) (b : EncBox) :
    (∀ e, get_boxed_polygons hull tess nvv nrv b = .error e → e = .qhullError) ∧
    (∀ polys, get_boxed_polygons hull tess nvv nrv b = .ok polys →
      polys.length = (addCorners tess nvv (patchRegions tess nrv) b).2.countP
        (fun reg => decide (reg.length ≠ 0))) := by
  constructor
  · intro e he
    exact hullPolys_error_qhull he
  · intro polys hp
    exact hullPolys_ok_length hp

theorem boxed_polygons_tessC7a_eval :
    get_boxed_polygons hullStubScipy tessC7a [(0, 0), (1, 0)] [] ⟨0, 0, 1, 1⟩ =
      .error .qhullError := by
  norm_num [get_boxed_polygons, patchRegions, ridgeAdditions, addCorners, cornersOf,
    nearestSeed, sqdist, hullPolys, hullStubScipy, tessC7a, pyGetD, List.range_succ]

/-- C7, counterexample.  With a region that resolves to two vertices, the
region closer surfaces the hull primitive's `QhullError` — not an
`IllFormedRegionError` — and with a region that resolves to zero vertices it
silently skips the region (one output polygon for a two-region
tessellation), contradicting both parts of the claim. -/
theorem c7_counterexample :
    get_boxed_polygons hullStubScipy tessC7a [(0, 0), (1, 0)] [] ⟨0, 0, 1, 1⟩ =
      .error .qhullError ∧
    GeomError.qhullError ≠ GeomError.illFormedRegionError ∧
    (∃ polys, get_boxed_polygons hullStubScipy tessC7b [(0, 0), (1, 0), (0, 1)] []
        ⟨0, 0, 1, 1⟩ = .ok polys ∧ polys.length = 1) ∧
    tessC7b.regions.length = 2 := by
  refine ⟨boxed_polygons_tessC7a_eval, by simp, ?_, by norm_num [tessC7b]⟩
  refine ⟨[[(0, 0), (1, 0), (0, 1), (0, 0), (0, 1), (1, 0), (1, 1)]], ?_, rfl⟩
  norm_num [get_boxed_polygons, patchRegions, ridgeAdditions, addCorners, cornersOf,
    nearestSeed, sqdist, hullPolys, hullStubScipy, tessC7b, pyGetD, List.range_succ,
    Int.toNat_ofNat, Int.toNat_natCast, List.getElem_cons_succ, List.getElem_cons_zero,
    Int.toNat]

/-- Witness for `c7_region_closer_error_behavior` at a concrete input with a
degenerate (two-vertex) region. -/
theorem c7_region_closer_error_behavior_witness :
    get_boxed_polygons hullStubScipy tessC7a [(0, 0), (1, 0)] [] ⟨0, 0, 1, 1⟩ =
      .error .qhullError ∧ GeomError.qhullError = GeomError.qhullError :=
  ⟨boxed_polygons_tessC7a_eval,
    (c7_region_closer_error_behavior hullStubScipy tessC7a [(0, 0), (1, 0)] []
      ⟨0, 0, 1, 1⟩).1 .qhullError boxed_polygons_tessC7a_eval⟩

/-- C8: the domain clipper is idempotent — a cell whose covered area is
contained in the domain polygon's covered area is returned unchanged by
`compute_cells_bounded_by_polygon` (at its own position in the output
list). -/
theorem c8_domain_clipper_idempotent (cells : List (List Pt)) (mappoly : List Pt)
    (i : ℕ) (c : List Pt) (hc : cells[i]? = some c)
    (hsub : coveredConvex c ⊆ coveredConvex mappoly) :
    (compute_cells_bounded_by_polygon cells mappoly)[i]? = some (coveredConvex c) := by
  unfold compute_cells_bounded_by_polygon polyIntersection
  rw [List.getElem?_map, hc]
  simp [Set.inter_eq_left.mpr hsub]

theorem innerSquare_sub_unitSquare :
    coveredConvex innerSquare ⊆ coveredConvex unitSquareCCW := by
  intro p hp
  have h0 := hp 0 (by norm_num [innerSquare])
  have h1 := hp 1 (by norm_num [innerSquare])
  have h2 := hp 2 (by norm_num [innerSquare])
  have h3 := hp 3 (by norm_num [innerSquare])
  simp only [innerSquare, cyc, ccw, List.length_cons, List.length_nil] at h0 h1 h2 h3
  norm_num at h0 h1 h2 h3
  intro i hi
  simp only [unitSquareCCW, List.length_cons, List.length_nil] at hi
  interval_cases i <;> simp [unitSquareCCW, cyc, ccw] <;> linarith

/-- Witness for `c8_domain_clipper_idempotent`: the inner square is fully
contained in the unit-square domain and is returned unchanged. -/
theorem c8_domain_clipper_idempotent_witness :
    coveredConvex innerSquare ⊆ coveredConvex unitSquareCCW ∧
    (compute_cells_bounded_by_polygon [innerSquare] unitSquareCCW)[0]? =
      some (coveredConvex innerSquare) :=
  ⟨innerSquare_sub_unitSquare,
    c8_domain_clipper_idempotent [innerSquare] unitSquareCCW 0 innerSquare rfl
      innerSquare_sub_unitSquare⟩

/-- C9: the per-vertex attribute `y` is assigned the same array as `x` — the
first coordinate column of the deduplicated coordinate array — so the stored
`y` attribute equals the vertices' x-coordinates; on the concrete ring
`[(1,2),(3,4),(5,6),(1,2)]` it differs from the actual y-coordinates. -/
theorem c9_y_attribute_is_x_column :
    (∀ polys : List (List Pt),
      graphYAttr polys = graphXAttr polys ∧
      graphYAttr polys = (ringCoordsUnion polys).map Prod.fst ∧
      ∀ g, create_graph_from_polys polys = .ok g → g.yattr = g.xattr) ∧
    graphYAttr [[(1, 2), (3, 4), (5, 6), (1, 2)]] ≠
      (ringCoordsUnion [[(1, 2), (3, 4), (5, 6), (1, 2)]]).map Prod.snd := by
  constructor
  · intro polys
    refine ⟨rfl, rfl, ?_⟩
    intro g hg
    simp only [create_graph_from_polys] at hg
    split at hg
    · cases hg
    · cases hg
      rfl
  · norm_num [graphYAttr, ringCoordsUnion, List.dedup_cons_of_mem,
      List.dedup_cons_of_not_mem, Prod.ext_iff]

theorem graphWeights_tri_length :
    (graphWeights [[(0, 0), (1, 0), (0, 1), (0, 0)]]).length = 4 := by
  simp [graphWeights, List.range_succ]

theorem coords_tri_eval :
    ringCoordsUnion [[(0, 0), (1, 0), (0, 1), (0, 0)]] = [(1, 0), (0, 1), (0, 0)] := by
  norm_num [ringCoordsUnion, List.dedup_cons_of_mem, List.dedup_cons_of_not_mem,
    Prod.ext_iff]

theorem edges_tri_eval :
    graphEdges [[(0, 0), (1, 0), (0, 1), (0, 0)]] = [(2, 0), (0, 1), (1, 2), (2, 2)] := by
  simp only [graphEdges, coords_tri_eval]
  norm_num [ringEdges, idxOf, List.range_succ, Prod.ext_iff]

theorem simplified_tri_length :
    (simplifyEdges (graphEdges [[(0, 0), (1, 0), (0, 1), (0, 0)]])).length = 3 := by
  rw [edges_tri_eval]
  decide

/-- C4: on the single triangle ring `[(0,0),(1,0),(0,1),(0,0)]` (a shapely
exterior ring, closing coordinate repeated), the source appends one weight
per pre-simplify edge — including the zero-length wrap edge `(i = m-1)`
between the repeated closing coordinate and the first coordinate, a
self-loop — so after `g.simplify()` removes that self-loop the weights list
(4 entries) no longer matches the edge count (3), and the edge-attribute
assignment `g.es['weight'] = weights` fails; no weighted graph is built. -/
theorem c4_weight_assignment_mismatch :
    (graphWeights [[(0, 0), (1, 0), (0, 1), (0, 0)]]).length = 4 ∧
    (simplifyEdges (graphEdges [[(0, 0), (1, 0), (0, 1), (0, 0)]])).length = 3 ∧
    create_graph_from_polys [[(0, 0), (1, 0), (0, 1), (0, 0)]] =
      .error .attrLengthMismatch := by
  refine ⟨graphWeights_tri_length, simplified_tri_length, ?_⟩
  have hne : (graphWeights [[(0, 0), (1, 0), (0, 1), (0, 0)]]).length ≠
      (simplifyEdges (graphEdges [[(0, 0), (1, 0), (0, 1), (0, 0)]])).length := by
    rw [graphWeights_tri_length, simplified_tri_length]
    omega
  simp only [create_graph_from_polys]
  rw [if_pos hne]

theorem foldl_vadd_fin : ∀ (L : List VFloat), (∀ x ∈ L, isFin x = true) →
    ∀ q : ℚ, L.foldl vadd (.fin q) = .fin (q + (L.map toRat).sum) := by
  intro L
  induction L with
  | nil => intro _ q; simp
  | cons x xs ih =>
    intro hfin q
    rcases x with r | _ | _
    · rw [List.foldl_cons]
      show xs.foldl vadd (.fin (q + r)) = _
      rw [ih (fun y hy => hfin y (List.mem_cons_of_mem _ hy)) (q + r)]
      simp only [List.map_cons, List.sum_cons, toRat]
      norm_num
      ring
    · exact absurd (hfin .inf (List.mem_cons_self _ _)) (by simp [isFin])
    · exact absurd (hfin .nan (List.mem_cons_self _ _)) (by simp [isFin])

theorem foldl_vadd_inf : ∀ (L : List VFloat), VFloat.nan ∉ L →
    L.foldl vadd .inf = .inf := by
  intro L
  induction L with
  | nil => intro _; rfl
  | cons x xs ih =>
    intro hnn
    rcases x with r | _ | _
    · exact ih (fun h => hnn (List.mem_cons_of_mem _ h))
    · exact ih (fun h => hnn (List.mem_cons_of_mem _ h))
    · exact absurd (List.mem_cons_self _ _) hnn

theorem foldl_vadd_of_inf_mem : ∀ (L : List VFloat), VFloat.inf ∈ L →
    VFloat.nan ∉ L → ∀ q : ℚ, L.foldl vadd (.fin q) = .inf := by
  intro L
  induction L with
  | nil => intro h; cases h
  | cons x xs ih =>
    intro hinf hnn q
    have hnn' : VFloat.nan ∉ xs := fun h => hnn (List.mem_cons_of_mem _ h)
    rcases x with r | _ | _
    · rw [List.foldl_cons]
      show xs.foldl vadd (.fin (q + r)) = _
      rcases List.mem_cons.mp hinf with h | h
      · cases h
      · exact ih h hnn' (q + r)
    · rw [List.foldl_cons]
      show xs.foldl vadd .inf = _
      exact foldl_vadd_inf xs hnn'
    · exact absurd (List.mem_cons_self _ _) hnn

theorem nat_mul_pred_nonneg (n : ℕ) : 0 ≤ (n : ℤ) * ((n : ℤ) - 1) := by
  cases n with
  | zero => norm_num
  | succ k =>
    have h1 : ((k : ℤ) + 1) ≥ 0 := by positivity
    have h2 : ((Nat.succ k : ℕ) : ℤ) = (k : ℤ) + 1 := by push_cast; ring
    rw [h2]
    have : (k : ℤ) + 1 - 1 = (k : ℤ) := by ring
    rw [this]
    positivity

/-- C5: the run-level average path length `np.sum(shortestpaths)/(n*(n-1))`:
(a) when the graph has `n ≥ 2` nodes and all pairwise distances are finite
(connected graph), it equals the sum of all finite pairwise distances divided
by `n*(n-1)`; (b) when `n < 2` (the matrix is then `[]` or `[[0.0]]`), the
result is `nan` — reported as undefined rather than a finite default; (c)
when the graph is disconnected (some entry is `inf`), the result is `inf` —
again not a finite default. -/
theorem vdivInt_fin (a : ℚ) (d : ℤ) :
    vdivInt (.fin a) d =
      if d = 0 then (if a = 0 then .nan else if 0 < a then .inf else .nan)
      else .fin (a / (d : ℚ)) := rfl

theorem vdivInt_inf (d : ℤ) :
    vdivInt .inf d = if 0 ≤ d then .inf else .nan := rfl

theorem c5_avg_path_length (sp : List (List VFloat)) (n : ℕ) :
    (2 ≤ n → (∀ x ∈ sp.flatten, isFin x = true) →
      avgpathlength sp n =
        .fin (finTotal sp / (((n : ℤ) * ((n : ℤ) - 1) : ℤ) : ℚ))) ∧
    (n < 2 → (sp = [] ∨ sp = [[.fin 0]]) → avgpathlength sp n = .nan) ∧
    (VFloat.inf ∈ sp.flatten → VFloat.nan ∉ sp.flatten →
      avgpathlength sp n = .inf) := by
  refine ⟨?_, ?_, ?_⟩
  · intro hn hfin
    have hsum : npSum sp = .fin (finTotal sp) := by
      unfold npSum finTotal
      rw [foldl_vadd_fin sp.flatten hfin 0, zero_add]
    have hd : ((n : ℤ) * ((n : ℤ) - 1)) ≠ 0 := by
      have h2 : (2 : ℤ) ≤ (n : ℤ) := by exact_mod_cast hn
      nlinarith
    unfold avgpathlength
    rw [hsum, vdivInt_fin, if_neg hd]
  · intro hn hsp
    have hsum : npSum sp = .fin 0 := by
      rcases hsp with rfl | rfl
      · rfl
      · show vadd (.fin 0) (.fin 0) = .fin 0
        show VFloat.fin (0 + 0) = .fin 0
        norm_num
    have hd : ((n : ℤ) * ((n : ℤ) - 1)) = 0 := by
      interval_cases n <;> norm_num
    unfold avgpathlength
    rw [hsum, hd, vdivInt_fin, if_pos rfl, if_pos rfl]
  · intro hinf hnn
    have hsum : npSum sp = .inf := foldl_vadd_of_inf_mem sp.flatten hinf hnn 0
    unfold avgpathlength
    rw [hsum, vdivInt_inf, if_pos (nat_mul_pred_nonneg n)]

/-- Witness for `c5_avg_path_length` on the 2-node distance matrix
`[[0, 5], [5, 0]]`: the average is `(0+5+5+0)/(2*1) = 5`. -/
theorem c5_avg_path_length_witness :
    (2 ≤ 2 ∧ (∀ x ∈ ([[VFloat.fin 0, VFloat.fin 5], [VFloat.fin 5, VFloat.fin 0]]
        : List (List VFloat)).flatten, isFin x = true)) ∧
    avgpathlength [[.fin 0, .fin 5], [.fin 5, .fin 0]] 2 = .fin 5 := by
  have hfin : ∀ x ∈ ([[VFloat.fin 0, VFloat.fin 5], [VFloat.fin 5, VFloat.fin 0]]
      : List (List VFloat)).flatten, isFin x = true := by
    intro x hx
    simp only [List.flatten, List.append_nil, List.mem_cons, List.mem_append,
      List.not_mem_nil, or_false, List.cons_append, List.nil_append] at hx
    rcases hx with rfl | rfl | rfl | rfl <;> rfl
  refine ⟨⟨le_refl 2, hfin⟩, ?_⟩
  have h := (c5_avg_path_length [[.fin 0, .fin 5], [.fin 5, .fin 0]] 2).1
    (le_refl 2) hfin
  rw [h]
  norm_num [finTotal, toRat]

theorem euclid_horizontal (a b : ℚ) : euclid (a, 0) (b, 0) = |((a - b : ℚ) : ℝ)| := by
  unfold euclid
  rw [← Real.sqrt_sq_eq_abs]
  norm_num

/-- C6: the reported centroid-to-seed displacements pair the i-th polygon (in
region order) with the i-th seed by raw index — the point-to-region mapping
is never used (`orderedcentroids` is dead code).  With region-ordered
centroids `[(10,0), (0,0)]`, seeds `[(0,0), (10,0)]` and mapping
`point_region = [1, 0]` (seed 0 owns polygon 1 and vice versa), the code
reports `[10, 10]` while the mapping-threaded displacement of the claim is
`[0, 0]`. -/
theorem c6_centroid_pairing_by_raw_index :
    centroidsdists [(10, 0), (0, 0)] [(0, 0), (10, 0)] = [10, 10] ∧
    centroidsdists_specRule [(10, 0), (0, 0)] [1, 0] [(0, 0), (10, 0)] = [0, 0] ∧
    (10 : ℝ) ≠ 0 := by
  have h1 : euclid ((10 : ℚ), (0 : ℚ)) (0 : Pt) = 10 := by
    rw [show (0 : Pt) = ((0 : ℚ), (0 : ℚ)) from rfl, euclid_horizontal]
    norm_num
  have h2 : euclid (0 : Pt) (10, 0) = 10 := by
    rw [show (0 : Pt) = ((0 : ℚ), (0 : ℚ)) from rfl, euclid_horizontal]
    norm_num
  have h3 : euclid (0 : Pt) (0 : Pt) = 0 := by
    rw [show (0 : Pt) = ((0 : ℚ), (0 : ℚ)) from rfl, euclid_horizontal]
    norm_num
  have h4 : euclid ((10 : ℚ), (0 : ℚ)) (10, 0) = 0 := by
    rw [euclid_horizontal]
    norm_num
  refine ⟨?_, ?_, by norm_num⟩
  · unfold centroidsdists
    simp [h1, h2]
  · unfold centroidsdists_specRule
    norm_num [List.range_succ, h3, h4]

/-- Witness for `c2_min_nonneg_candidate` at a concrete input. -/
theorem c2_min_nonneg_candidate_witness :
    get_crossing_point_rectangle (1/2, 9/10) (1, 0) 1 ⟨0, 0, 1, 1⟩ =
      (1/2 + 1 * 1 * minDistOf (1/2, 9/10) (1, 0) 1 ⟨0, 0, 1, 1⟩,
       9/10 + 1 * 0 * minDistOf (1/2, 9/10) (1, 0) 1 ⟨0, 0, 1, 1⟩) ∧
    0 ≤ minDistOf (1/2, 9/10) (1, 0) 1 ⟨0, 0, 1, 1⟩ :=
  ⟨(c2_min_nonneg_candidate (1/2, 9/10) (1, 0) 1 ⟨0, 0, 1, 1⟩).1,
   (c2_min_nonneg_candidate (1/2, 9/10) (1, 0) 1 ⟨0, 0, 1, 1⟩).2.1⟩

/-- Witness for `c9_y_attribute_is_x_column` at a concrete input. -/
theorem c9_y_attribute_is_x_column_witness :
    graphYAttr [[(1, 2), (3, 4), (5, 6), (1, 2)]] =
      graphXAttr [[(1, 2), (3, 4), (5, 6), (1, 2)]] :=
  (c9_y_attribute_is_x_column.1 [[(1, 2), (3, 4), (5, 6), (1, 2)]]).1

end VoronoiAreas
